import Mathlib

/-!
# Verification of the matrix (QR-style) encoder

Shallow embedding of the client-side QR-style encoder found in
`PatientBelongingsInventory-preview.jsx` (the `QRCode` IIFE, lines 4-137).
A matrix is a list of rows; a cell is `Option Bool` where `none` is the
JavaScript `null` ("unset"), `some true` is dark and `some false` is light.
Payloads are byte lists (`List Nat`); bit streams are lists of the numbers
0/1 exactly as the source pushes them.
-/

namespace QR

/-- Error-correction levels; `EC_LEVELS = { L: 1, M: 0, Q: 3, H: 2 }`. -/
inductive ECL where
  | L | M | Q | H
deriving DecidableEq, Repr

def EC_LEVELS : ECL → Nat
  | .L => 1
  | .M => 0
  | .Q => 3
  | .H => 2

/-- A matrix of modules: `null` = unset, `true` = dark, `false` = light. -/
abbrev Mat := List (List (Option Bool))

/-- `matrix[r][c]` read (in-bounds in every reachable use; out of bounds
reads default to `none`). -/
def mget (m : Mat) (r c : Nat) : Option Bool :=
  (m.getD r []).getD c none

/-- `matrix[r][c] = v` write (a no-op out of bounds, which never occurs in
reachable uses). -/
def mset (m : Mat) (r c : Nat) (v : Bool) : Mat :=
  m.set r ((m.getD r []).set c (some v))

/-- The capacity table of `getVersion`:
`[17,32,53,78,106,134,154,192,230,271,321,367,425,458,520,586,644,718,792,858]`. -/
def caps : List Nat :=
  [17,32,53,78,106,134,154,192,230,271,321,367,425,458,520,586,644,718,792,858]

/-- `caps[v-1]` for a 1-based version index. -/
def capsGet (v : Nat) : Nat := caps.getD (v - 1) 0

/-- The loop `for (let v = 1; v <= 20; v++) if (caps[v-1] >= len) return v;
return 20;`.  The first argument is structural recursion fuel; the loop
makes at most 20 strictly-increasing steps from `v = 1`, so the fuel `21`
supplied by `getVersion` never runs out before the `v > 20` exit. -/
def getVersionLoop (len : Nat) : Nat → Nat → Nat
  | 0, _ => 20
  | fuel + 1, v =>
    if v ≤ 20 then
      if len ≤ caps.getD (v - 1) 0 then v else getVersionLoop len fuel (v + 1)
    else 20

/-- `getVersion(len, ecl)`; the `ecl` argument is received but never used. -/
def getVersion (len : Nat) (ecl : ECL) : Nat :=
  getVersionLoop len 21 1

/-- `createMatrix(size)`: a `size × size` grid of `null`. -/
def createMatrix (size : Nat) : Mat :=
  List.replicate size (List.replicate size none)

/-- The nine offsets `-1..7` of the finder-pattern loops. -/
def offsets9 : List Int := [-1, 0, 1, 2, 3, 4, 5, 6, 7]

/-- The module value written by `addFinderPattern` at offset `(r, c)`:
`(r >= 0 && r <= 6 && (c === 0 || c === 6)) || (c >= 0 && c <= 6 &&
(r === 0 || r === 6)) || (r >= 2 && r <= 4 && c >= 2 && c <= 4)`. -/
def finderBit (r c : Int) : Bool :=
  (decide (0 ≤ r) && decide (r ≤ 6) && (c == 0 || c == 6)) ||
  (decide (0 ≤ c) && decide (c ≤ 6) && (r == 0 || r == 6)) ||
  (decide (2 ≤ r) && decide (r ≤ 4) && decide (2 ≤ c) && decide (c ≤ 4))

/-- `addFinderPattern(matrix, row, col)`: a 9×9 double loop over offsets
`-1..7`, skipping cells outside the grid. -/
def addFinderPattern (m : Mat) (row col : Int) : Mat :=
  offsets9.foldl (fun m r =>
    offsets9.foldl (fun m c =>
      let rr := row + r
      let cc := col + c
      if rr < 0 || cc < 0 || (m.length : Int) ≤ rr || (m.length : Int) ≤ cc then m
      else mset m rr.toNat cc.toNat (finderBit r c)) m) m

/-- The timing loop `for (let i = 8; i < size - 8; i++)
matrix[6][i] = matrix[i][6] = i % 2 === 0;` (the chained assignment writes
`matrix[i][6]` first). -/
def addTiming (m : Mat) (size : Nat) : Mat :=
  (List.range' 8 (size - 16)).foldl (fun m i =>
    let m := mset m i 6 (decide (i % 2 = 0))
    mset m 6 i (decide (i % 2 = 0))) m

/-- The five offsets `-2..2` of the alignment-pattern loops. -/
def offsets5 : List Int := [-2, -1, 0, 1, 2]

/-- `addAlignmentPattern(matrix, row, col)`: writes
`Math.abs(r) === 2 || Math.abs(c) === 2 || (r === 0 && c === 0)` at each
offset (all reachable writes are in bounds). -/
def addAlignmentPattern (m : Mat) (row col : Nat) : Mat :=
  offsets5.foldl (fun m r =>
    offsets5.foldl (fun m c =>
      mset m ((row : Int) + r).toNat ((col : Int) + c).toNat
        (r.natAbs == 2 || c.natAbs == 2 || (r == 0 && c == 0))) m) m

/-- The loop `for (let p = dist + 6; pos.length <= intervals; p -= step)
pos.unshift(p);`.  For every version in the reachable range `2..20` the
values of `p` stay positive, so `Nat` subtraction is exact here.  The
first argument is fuel; the loop makes exactly `intervals` unshifts
(`pos` grows from length 1 to `intervals + 1`), so the fuel
`intervals + 1` supplied by `getAlignmentPos` never runs out before the
loop condition fails. -/
def posLoop (step intervals : Nat) : Nat → Nat → List Nat → List Nat
  | 0, _, pos => pos
  | fuel + 1, p, pos =>
    if pos.length ≤ intervals then posLoop step intervals fuel (p - step) (p :: pos)
    else pos

/-- `getAlignmentPos(version)`.  `Math.ceil(dist / intervals / 2)` is the
real-number ceiling of `dist / (2*intervals)`, which for the argument
range used here equals the Nat ceiling `(dist + 2*intervals - 1) / (2*intervals)`. -/
def getAlignmentPos (version : Nat) : List Nat :=
  if version = 1 then []
  else
    let intervals := version / 7 + 1
    let dist := 4 * version + 4
    let step := ((dist + 2 * intervals - 1) / (2 * intervals)) * 2
    posLoop step intervals (intervals + 1) (dist + 6) [6]

/-- The guard `matrix[row]?.[col] === null` (false when either index is out
of bounds, true exactly on an in-bounds unset cell). -/
def isNullAt (m : Mat) (row col : Nat) : Bool :=
  decide ((m[row]?.bind fun rw => rw[col]?) = some none)

/-- The alignment phase of `applyMask`: for `version > 1`, stamp an
alignment pattern at every position pair whose cell is still `null`. -/
def placeAlignments (m : Mat) (version : Nat) : Mat :=
  if version > 1 then
    let pos := getAlignmentPos version
    pos.foldl (fun m row =>
      pos.foldl (fun m col =>
        if isNullAt m row col then addAlignmentPattern m row col else m) m) m
  else m

/-- The pattern phase of `applyMask` (everything before `fillData`):
three finder stamps, the timing patterns, and the alignment stamps. -/
def placePatterns (m : Mat) (version : Nat) : Mat :=
  let size := m.length
  let m := addFinderPattern m 0 0
  let m := addFinderPattern m ((size : Int) - 7) 0
  let m := addFinderPattern m 0 ((size : Int) - 7)
  let m := addTiming m size
  placeAlignments m version

/-- `getCapacity(version)`; `Nat` subtraction and division agree with the
source's arithmetic throughout the reachable version range `1..20`. -/
def getCapacity (version : Nat) : Nat :=
  let total := (version * 4 + 17) ^ 2
  let func := 192 + (if version > 1 then (version / 7 + 1) ^ 2 * 25 - 10 else 0) +
    (if version > 6 then 67 else 0)
  (total - func) / 8 - (if version < 2 then 13 else if version < 7 then 22 else 36)

/-- The terminator loop `while (bits.length % 8 !== 0) bits.push(0);`:
each pass appends one `0`, so the loop appends exactly
`(8 - bits.length % 8) % 8` zeros and stops at the next byte boundary. -/
def padTerminator (bits : List Nat) : List Nat :=
  bits ++ List.replicate ((8 - bits.length % 8) % 8) 0

/-- The padding loop: while short of `capacity`, push the eight bits of the
current pad byte (stopping mid-byte at `capacity`), alternating
`0xEC`/`0x11`.  The first explicit argument is fuel; every pass appends at
least one bit, so the fuel `capacity` supplied by `padBytes` never runs
out before the loop condition fails. -/
def padBytesGo (capacity : Nat) : Nat → List Nat → Nat → List Nat
  | 0, bits, _ => bits
  | fuel + 1, bits, pad =>
    if bits.length < capacity then
      padBytesGo capacity fuel
        (bits ++ ((List.range 8).reverse.map fun i => (pad >>> i) &&& 1).take
          (capacity - bits.length))
        (if pad = 0xEC then 0x11 else 0xEC)
    else bits

/-- The padding loop of `fillData` with its initial pad byte `0xEC`. -/
def padBytes (bits : List Nat) (capacity : Nat) (pad : Nat) : List Nat :=
  padBytesGo capacity capacity bits pad

/-- The bit-stream construction at the head of `fillData`: mode indicator
`0100`, big-endian character count (8 bits below version 10, else 16),
big-endian data bytes, terminator zeros to a byte boundary, then pad bytes
up to `getCapacity(version) * 8` bits. -/
def mkBits (data : List Nat) (version : Nat) : List Nat :=
  let bits : List Nat := [0, 1, 0, 0]
  let countBits := if version < 10 then 8 else 16
  let bits := bits ++ ((List.range countBits).reverse.map fun i =>
    (data.length >>> i) &&& 1)
  let bits := data.foldl (fun bits byte =>
    bits ++ ((List.range 8).reverse.map fun i => (byte >>> i) &&& 1)) bits
  let bits := padTerminator bits
  padBytes bits (getCapacity version * 8) 0xEC

/-- The loop body of the zigzag at one cell `(row, cc)`: on a `null` cell
assign the next bit (`bits[i++] === 1`, or `false` once the stream is
exhausted) and then flip the just-assigned value when
`(row + cc) % 2 === 0` (mask pattern 0).  The state is the matrix together
with the bit cursor `i`. -/
def fillCell (bits : List Nat) (row cc : Nat) (mi : Mat × Nat) : Mat × Nat :=
  if mget mi.1 row cc = none then
    let b := if mi.2 < bits.length then decide (bits.getD mi.2 0 = 1) else false
    let m1 := mset mi.1 row cc b
    let m2 := if (row + cc) % 2 = 0 then mset m1 row cc (!b) else m1
    (m2, if mi.2 < bits.length then mi.2 + 1 else mi.2)
  else mi

/-- The inner loop `for (let c = 0; c < 2; c++)`: visit `cc = col - c` for
`c = 0, 1` at the given row. -/
def fillRow (bits : List Nat) (col : Nat) (mi : Mat × Nat) (row : Nat) :
    Mat × Nat :=
  [0, 1].foldl (fun mi c => fillCell bits row (col - c) mi) mi

/-- One 2-column strip of the zigzag: the row loop over `rows`. -/
def fillStrip (bits : List Nat) (mi : Mat × Nat) (col : Nat) (rows : List Nat) :
    Mat × Nat :=
  rows.foldl (fillRow bits col) mi

/-- The outer zigzag loop of `fillData`: while `col > 0`, decrement once
more when `col === 6`, walk the rows downward or upward according to
`dir`, then move two columns left and reverse direction.  The first
explicit argument is fuel; `col` strictly decreases every pass, so the
fuel `size` supplied by `fillData` (with starting column `size - 1`)
never runs out before the loop condition fails. -/
def fillCols (bits : List Nat) (size : Nat) : Nat → Mat → Nat → Nat → Int → Mat
  | 0, m, _, _, _ => m
  | fuel + 1, m, i, col, dir =>
    if col > 0 then
      let col' := if col = 6 then col - 1 else col
      let rows := if dir < 0 then (List.range size).reverse else List.range size
      let mi := fillStrip bits (m, i) col' rows
      fillCols bits size fuel mi.1 mi.2 (col' - 2) (-dir)
    else m

/-- `fillData(matrix, data, version)`: build the bit stream, then run the
zigzag placement starting at the rightmost column pair moving upward. -/
def fillData (m : Mat) (data : List Nat) (version : Nat) : Mat :=
  let size := m.length
  let bits := mkBits data version
  fillCols bits size size m 0 (size - 1) (-1)

/-- `applyMask(matrix, data, version, ecl)`: the pattern phase followed by
the data phase; the `ecl` argument is received but never used. -/
def applyMask (m : Mat) (data : List Nat) (version : Nat) (ecl : Nat) : Mat :=
  fillData (placePatterns m version) data version

/-- `generateQR(text, ecl)` after the caller's UTF-8 step: `data` is the
payload byte list. -/
def generateQR (data : List Nat) (ecl : ECL) : Mat :=
  let version := getVersion data.length ecl
  let size := version * 4 + 17
  let matrix := createMatrix size
  applyMask matrix data version (EC_LEVELS ecl)

/-- The list of column indices visited by the `fillCols` zigzag started at
`col` (each loop iteration visits `col'` and `col' - 1`); same fuel
discipline as `fillCols`. -/
def visitedColsGo : Nat → Nat → List Nat
  | 0, _ => []
  | fuel + 1, col =>
    if col > 0 then
      let col' := if col = 6 then col - 1 else col
      col' :: (col' - 1) :: visitedColsGo fuel (col' - 2)
    else []

/-- Columns visited by the zigzag started at `col` with ample fuel. -/
def visitedCols (col : Nat) : List Nat := visitedColsGo (col + 1) col

/-!
## Instrumented (checked) run

The same pipeline with a Boolean flag that is raised the moment any write
targets a module that is already set (`first writer wins` violation
detector).  The data-placement event (assignment plus the immediate mask
flip of the value just assigned) counts as a single write of its final
value.
-/

/-- A checked write: raise the flag when the target cell is already set. -/
def msetChk (mb : Mat × Bool) (r c : Nat) (v : Bool) : Mat × Bool :=
  (mset mb.1 r c v, mb.2 || decide (mget mb.1 r c ≠ none))

/-- Checked `addFinderPattern`. -/
def addFinderPatternChk (mb : Mat × Bool) (row col : Int) : Mat × Bool :=
  offsets9.foldl (fun mb r =>
    offsets9.foldl (fun mb c =>
      let rr := row + r
      let cc := col + c
      if rr < 0 || cc < 0 || (mb.1.length : Int) ≤ rr || (mb.1.length : Int) ≤ cc
      then mb
      else msetChk mb rr.toNat cc.toNat (finderBit r c)) mb) mb

/-- Checked timing loop. -/
def addTimingChk (mb : Mat × Bool) (size : Nat) : Mat × Bool :=
  (List.range' 8 (size - 16)).foldl (fun mb i =>
    let mb := msetChk mb i 6 (decide (i % 2 = 0))
    msetChk mb 6 i (decide (i % 2 = 0))) mb

/-- Checked `addAlignmentPattern`. -/
def addAlignmentPatternChk (mb : Mat × Bool) (row col : Nat) : Mat × Bool :=
  offsets5.foldl (fun mb r =>
    offsets5.foldl (fun mb c =>
      msetChk mb ((row : Int) + r).toNat ((col : Int) + c).toNat
        (r.natAbs == 2 || c.natAbs == 2 || (r == 0 && c == 0))) mb) mb

/-- Checked alignment phase. -/
def placeAlignmentsChk (mb : Mat × Bool) (version : Nat) : Mat × Bool :=
  if version > 1 then
    let pos := getAlignmentPos version
    pos.foldl (fun mb row =>
      pos.foldl (fun mb col =>
        if isNullAt mb.1 row col then addAlignmentPatternChk mb row col else mb)
        mb) mb
  else mb

/-- Checked pattern phase. -/
def placePatternsChk (mb : Mat × Bool) (version : Nat) : Mat × Bool :=
  let size := mb.1.length
  let mb := addFinderPatternChk mb 0 0
  let mb := addFinderPatternChk mb ((size : Int) - 7) 0
  let mb := addFinderPatternChk mb 0 ((size : Int) - 7)
  let mb := addTimingChk mb size
  placeAlignmentsChk mb version

/-- Checked cell step: the guarded data-placement write (assignment plus
mask flip) is one checked write of the final value. -/
def fillCellChk (bits : List Nat) (row cc : Nat) (mib : (Mat × Nat) × Bool) :
    (Mat × Nat) × Bool :=
  if mget mib.1.1 row cc = none then
    let b := if mib.1.2 < bits.length then decide (bits.getD mib.1.2 0 = 1)
      else false
    let b := if (row + cc) % 2 = 0 then !b else b
    let mb := msetChk (mib.1.1, mib.2) row cc b
    ((mb.1, if mib.1.2 < bits.length then mib.1.2 + 1 else mib.1.2), mb.2)
  else mib

/-- Checked inner column loop. -/
def fillRowChk (bits : List Nat) (col : Nat) (mib : (Mat × Nat) × Bool)
    (row : Nat) : (Mat × Nat) × Bool :=
  [0, 1].foldl (fun mib c => fillCellChk bits row (col - c) mib) mib

/-- Checked strip. -/
def fillStripChk (bits : List Nat) (mib : (Mat × Nat) × Bool) (col : Nat)
    (rows : List Nat) : (Mat × Nat) × Bool :=
  rows.foldl (fillRowChk bits col) mib

/-- Checked outer zigzag loop; same fuel discipline as `fillCols`. -/
def fillColsChk (bits : List Nat) (size : Nat) :
    Nat → (Mat × Nat) × Bool → Nat → Int → (Mat × Nat) × Bool
  | 0, mib, _, _ => mib
  | fuel + 1, mib, col, dir =>
    if col > 0 then
      let col' := if col = 6 then col - 1 else col
      let rows := if dir < 0 then (List.range size).reverse else List.range size
      let mib := fillStripChk bits mib col' rows
      fillColsChk bits size fuel mib (col' - 2) (-dir)
    else mib

/-- Checked `fillData`. -/
def fillDataChk (mb : Mat × Bool) (data : List Nat) (version : Nat) :
    Mat × Bool :=
  let size := mb.1.length
  let bits := mkBits data version
  let mib := fillColsChk bits size size ((mb.1, 0), mb.2) (size - 1) (-1)
  (mib.1.1, mib.2)

/-- Checked `applyMask`: the full encode run with the overwrite detector. -/
def applyMaskChk (mb : Mat × Bool) (data : List Nat) (version : Nat)
    (ecl : Nat) : Mat × Bool :=
  fillDataChk (placePatternsChk mb version) data version

/-!
## Bitmask mirror of the pattern phase

A second representation of a grid as a pair of natural numbers read as
bit vectors: bit `r * size + c` of the first component records whether the
cell `(r, c)` is set, and the same bit of the second component records its
value (dark = 1).  Each list-based pattern operation has a pointwise
mirror here (with the grid side `size` passed explicitly); the agreement
theorems below prove the two representations coincide cell by cell.  The
mirror exists because its kernel evaluation uses constant-size big-number
arithmetic, which lets the per-version ground facts be established by
`decide`.
-/

/-- Bitmask grid representation: (set mask, dark mask). -/
abbrev BMat := Nat × Nat

/-- The all-unset grid (mirror of `createMatrix`). -/
def emptyB : BMat := (0, 0)

/-- Pointwise mirror of `mset`: in-bounds cells update, out-of-bounds
writes are the same no-op they are on a well-formed list grid. -/
def bset (size : Nat) (s : BMat) (r c : Nat) (v : Bool) : BMat :=
  if r < size ∧ c < size then
    let k := r * size + c
    (s.1 ||| (1 <<< k),
      if v then s.2 ||| (1 <<< k) else s.2 ^^^ (s.2 &&& (1 <<< k)))
  else s

/-- Pointwise mirror of `mget` (out-of-bounds cells read as unset, as they
do on a well-formed list grid). -/
def bget (size : Nat) (s : BMat) (r c : Nat) : Option Bool :=
  if r < size ∧ c < size then
    if s.1.testBit (r * size + c) then some (s.2.testBit (r * size + c))
    else none
  else none

/-- Mirror of `addFinderPattern`. -/
def addFinderPatternB (size : Nat) (s : BMat) (row col : Int) : BMat :=
  offsets9.foldl (fun s r =>
    offsets9.foldl (fun s c =>
      let rr := row + r
      let cc := col + c
      if rr < 0 || cc < 0 || (size : Int) ≤ rr || (size : Int) ≤ cc then s
      else bset size s rr.toNat cc.toNat (finderBit r c)) s) s

/-- Mirror of `addTiming`. -/
def addTimingB (size : Nat) (s : BMat) : BMat :=
  (List.range' 8 (size - 16)).foldl (fun s i =>
    let s := bset size s i 6 (decide (i % 2 = 0))
    bset size s 6 i (decide (i % 2 = 0))) s

/-- Mirror of `addAlignmentPattern`. -/
def addAlignmentPatternB (size : Nat) (s : BMat) (row col : Nat) : BMat :=
  offsets5.foldl (fun s r =>
    offsets5.foldl (fun s c =>
      bset size s ((row : Int) + r).toNat ((col : Int) + c).toNat
        (r.natAbs == 2 || c.natAbs == 2 || (r == 0 && c == 0))) s) s

/-- Mirror of `isNullAt` (true exactly on an in-bounds unset cell). -/
def isNullAtB (size : Nat) (s : BMat) (row col : Nat) : Bool :=
  decide (bget size s row col = none) && decide (row < size) && decide (col < size)

/-- Mirror of `placeAlignments`. -/
def placeAlignmentsB (size : Nat) (s : BMat) (version : Nat) : BMat :=
  if version > 1 then
    let pos := getAlignmentPos version
    pos.foldl (fun s row =>
      pos.foldl (fun s col =>
        if isNullAtB size s row col then addAlignmentPatternB size s row col
        else s) s) s
  else s

/-- Mirror of `placePatterns`. -/
def placePatternsB (size : Nat) (s : BMat) (version : Nat) : BMat :=
  let s := addFinderPatternB size s 0 0
  let s := addFinderPatternB size s ((size : Int) - 7) 0
  let s := addFinderPatternB size s 0 ((size : Int) - 7)
  let s := addTimingB size s
  placeAlignmentsB size s version

/-- Mirror of `msetChk`: on a well-formed list grid an out-of-bounds read
is `none`, which `bget` reproduces, so the flag terms agree. -/
def bsetChk (size : Nat) (sb : BMat × Bool) (r c : Nat) (v : Bool) :
    BMat × Bool :=
  (bset size sb.1 r c v, sb.2 || decide (bget size sb.1 r c ≠ none))

/-- Mirror of `addFinderPatternChk`. -/
def addFinderPatternChkB (size : Nat) (sb : BMat × Bool) (row col : Int) :
    BMat × Bool :=
  offsets9.foldl (fun sb r =>
    offsets9.foldl (fun sb c =>
      let rr := row + r
      let cc := col + c
      if rr < 0 || cc < 0 || (size : Int) ≤ rr || (size : Int) ≤ cc then sb
      else bsetChk size sb rr.toNat cc.toNat (finderBit r c)) sb) sb

/-- Mirror of `addTimingChk`. -/
def addTimingChkB (size : Nat) (sb : BMat × Bool) : BMat × Bool :=
  (List.range' 8 (size - 16)).foldl (fun sb i =>
    let sb := bsetChk size sb i 6 (decide (i % 2 = 0))
    bsetChk size sb 6 i (decide (i % 2 = 0))) sb

/-- Mirror of `addAlignmentPatternChk`. -/
def addAlignmentPatternChkB (size : Nat) (sb : BMat × Bool) (row col : Nat) :
    BMat × Bool :=
  offsets5.foldl (fun sb r =>
    offsets5.foldl (fun sb c =>
      bsetChk size sb ((row : Int) + r).toNat ((col : Int) + c).toNat
        (r.natAbs == 2 || c.natAbs == 2 || (r == 0 && c == 0))) sb) sb

/-- Mirror of `placeAlignmentsChk`. -/
def placeAlignmentsChkB (size : Nat) (sb : BMat × Bool) (version : Nat) :
    BMat × Bool :=
  if version > 1 then
    let pos := getAlignmentPos version
    pos.foldl (fun sb row =>
      pos.foldl (fun sb col =>
        if isNullAtB size sb.1 row col then addAlignmentPatternChkB size sb row col
        else sb) sb) sb
  else sb

/-- Mirror of `placePatternsChk`. -/
def placePatternsChkB (size : Nat) (sb : BMat × Bool) (version : Nat) :
    BMat × Bool :=
  let sb := addFinderPatternChkB size sb 0 0
  let sb := addFinderPatternChkB size sb ((size : Int) - 7) 0
  let sb := addFinderPatternChkB size sb 0 ((size : Int) - 7)
  let sb := addTimingChkB size sb
  placeAlignmentsChkB size sb version

/-!
## Proof infrastructure predicates
-/

/-- Well-formedness: a square grid of side `n`. -/
def WF (m : Mat) (n : Nat) : Prop :=
  m.length = n ∧ ∀ row ∈ m, row.length = n

/-- Value preservation: every set cell of `m` keeps its value in `m'`. -/
def Pres (m m' : Mat) : Prop :=
  ∀ r c, mget m r c ≠ none → mget m' r c = mget m r c

/-- Cellwise agreement between a list grid and a bitmask grid. -/
def Agrees (size : Nat) (m : Mat) (s : BMat) : Prop :=
  ∀ r c, r < size → c < size → mget m r c = bget size s r c

/-!
## Basic cell lemmas
-/

theorem mget_eq (m : Mat) (r c : Nat) :
    mget m r c = ((m[r]?.getD [])[c]?).getD none := by
  simp [mget, List.getD_eq_getElem?_getD]

theorem mget_mset_ne (m : Mat) {r c r' c' : Nat} (v : Bool)
    (h : ¬(r' = r ∧ c' = c)) : mget (mset m r c v) r' c' = mget m r' c' := by
  rw [mget_eq, mget_eq, mset]
  rcases eq_or_ne r' r with rfl | hr
  · have hc : c' ≠ c := fun hc => h ⟨rfl, hc⟩
    rw [List.getElem?_set]
    split
    · split
      · simp [List.getElem?_set_ne (Ne.symm hc), List.getD_eq_getElem?_getD]
      · rename_i hlen
        simp only [not_lt] at hlen
        rw [List.getElem?_eq_none hlen]
    · omega
  · rw [List.getElem?_set_ne (Ne.symm hr)]

theorem mget_mset_self (m : Mat) {r c : Nat} (v : Bool)
    (hr : r < m.length) (hc : c < (m.getD r []).length) :
    mget (mset m r c v) r c = some v := by
  rw [mget_eq, mset, List.getElem?_set]
  simp only [if_pos rfl, if_pos hr]
  have hc' : c < ((m[r]?.getD []).set c (some v)).length := by
    simpa [List.getD_eq_getElem?_getD] using hc
  simp [List.getElem?_set_self (by simpa [List.getD_eq_getElem?_getD] using hc)]

theorem mget_oob (m : Mat) {n r c : Nat} (hwf : WF m n)
    (h : n ≤ r ∨ n ≤ c) : mget m r c = none := by
  rw [mget_eq]
  rcases h with h | h
  · have : m[r]? = none := List.getElem?_eq_none (le_of_eq_of_le hwf.1 h)
    rw [this]
    rfl
  · rcases hlt : m[r]? with _ | row
    · rfl
    · have hrow : row ∈ m := List.getElem?_mem hlt
      have hlen : row.length = n := hwf.2 row hrow
      have : row[c]? = none := List.getElem?_eq_none (le_of_eq_of_le hlen h)
      simp [hlt, this]

theorem mset_mset (m : Mat) (r c : Nat) (a b : Bool) :
    mset (mset m r c a) r c b = mset m r c b := by
  unfold mset
  rcases Nat.lt_or_ge r m.length with hr | hr
  · rw [List.set_set]
    congr 1
    have : (m.set r ((m.getD r []).set c (some a))).getD r [] =
        (m.getD r []).set c (some a) := by
      simp [List.getD_eq_getElem?_getD, List.getElem?_set_self hr]
    rw [this, List.set_set]
  · have hset : m.set r ((m.getD r []).set c (some a)) = m :=
      List.set_eq_of_length_le hr
    rw [hset]

theorem WF.length_eq {m : Mat} {n : Nat} (h : WF m n) : m.length = n := h.1

theorem WF.rowlen {m : Mat} {n r : Nat} (h : WF m n) (hr : r < n) :
    (m.getD r []).length = n := by
  rcases hl : m[r]? with _ | row
  · rw [List.getElem?_eq_none_iff] at hl
    have := h.1
    omega
  · have : row ∈ m := List.getElem?_mem hl
    simp [List.getD_eq_getElem?_getD, hl, h.2 row this]

theorem WF.mset {m : Mat} {n : Nat} (h : WF m n) (r c : Nat) (v : Bool) :
    WF (QR.mset m r c v) n := by
  constructor
  · simp [QR.mset, h.1]
  · intro row hrow
    rcases Nat.lt_or_ge r m.length with hr | hr
    · rcases List.mem_or_eq_of_mem_set hrow with hmem | rfl
      · exact h.2 row hmem
      · have hl : ((m.getD r []).set c (some v)).length = (m.getD r []).length :=
          List.length_set ..
        rw [hl]
        exact h.rowlen (h.1 ▸ hr)
    · have hset : QR.mset m r c v = m := List.set_eq_of_length_le hr
      rw [hset] at hrow
      exact h.2 row hrow

theorem WF.mget_mset_self' {m : Mat} {n r c : Nat} (h : WF m n)
    (hr : r < n) (hc : c < n) (v : Bool) :
    mget (QR.mset m r c v) r c = some v :=
  mget_mset_self m v (h.1 ▸ hr) (h.rowlen hr ▸ hc)

theorem WF.createMatrix (n : Nat) : WF (QR.createMatrix n) n := by
  constructor
  · simp [QR.createMatrix]
  · intro row hrow
    rw [List.eq_of_mem_replicate hrow]
    simp

theorem mget_createMatrix (n r c : Nat) : mget (createMatrix n) r c = none := by
  rw [mget_eq, createMatrix]
  rcases Nat.lt_or_ge r n with hr | hr
  · rw [List.getElem?_replicate, if_pos hr]
    rcases Nat.lt_or_ge c n with hc | hc
    · simp [List.getElem?_replicate, hc]
    · simp [List.getElem?_replicate, Nat.not_lt.2 hc]
  · rw [List.getElem?_replicate, if_neg (Nat.not_lt.2 hr)]
    rfl

/-!
## Generic fold lemmas
-/

theorem foldl_rel {α σ τ : Type _} (R : σ → τ → Prop) (g : σ → α → σ)
    (h : τ → α → τ) (step : ∀ s t a, R s t → R (g s a) (h t a)) :
    ∀ (l : List α) (s : σ) (t : τ), R s t → R (l.foldl g s) (l.foldl h t) := by
  intro l
  induction l with
  | nil => intro s t hst; exact hst
  | cons a l ih =>
    intro s t hst
    exact ih _ _ (step _ _ _ hst)

theorem foldl_inv {α σ : Type _} (Q : σ → Prop) (g : σ → α → σ)
    (step : ∀ s a, Q s → Q (g s a)) :
    ∀ (l : List α) (s : σ), Q s → Q (l.foldl g s) := by
  intro l
  induction l with
  | nil => intro s hs; exact hs
  | cons a l ih =>
    intro s hs
    exact ih _ (step _ _ hs)

/-!
## Well-formedness through every operation
-/

theorem WF.addFinderPattern {m : Mat} {n : Nat} (h : WF m n) (row col : Int) :
    WF (QR.addFinderPattern m row col) n := by
  unfold QR.addFinderPattern
  refine foldl_inv (fun m => WF m n) _ (fun m r hm => ?_) _ _ h
  refine foldl_inv (fun m => WF m n) _ (fun m c hm => ?_) _ _ hm
  dsimp only
  split
  · exact hm
  · exact hm.mset ..

theorem WF.addTiming {m : Mat} {n : Nat} (h : WF m n) (size : Nat) :
    WF (QR.addTiming m size) n := by
  unfold QR.addTiming
  exact foldl_inv (fun m => WF m n) _ (fun m i hm => (hm.mset ..).mset ..) _ _ h

theorem WF.addAlignmentPattern {m : Mat} {n : Nat} (h : WF m n) (row col : Nat) :
    WF (QR.addAlignmentPattern m row col) n := by
  unfold QR.addAlignmentPattern
  refine foldl_inv (fun m => WF m n) _ (fun m r hm => ?_) _ _ h
  exact foldl_inv (fun m => WF m n) _ (fun m c hm => hm.mset ..) _ _ hm

theorem WF.placeAlignments {m : Mat} {n : Nat} (h : WF m n) (version : Nat) :
    WF (QR.placeAlignments m version) n := by
  unfold QR.placeAlignments
  split
  · refine foldl_inv (fun m => WF m n) _ (fun m row hm => ?_) _ _ h
    refine foldl_inv (fun m => WF m n) _ (fun m col hm => ?_) _ _ hm
    dsimp only
    split
    · exact hm.addAlignmentPattern ..
    · exact hm
  · exact h

theorem WF.placePatterns {m : Mat} {n : Nat} (h : WF m n) (version : Nat) :
    WF (QR.placePatterns m version) n := by
  unfold QR.placePatterns
  exact ((((h.addFinderPattern ..).addFinderPattern ..).addFinderPattern ..).addTiming
    _).placeAlignments _

theorem WF.fillCell {mi : Mat × Nat} {n : Nat} (h : WF mi.1 n)
    (bits : List Nat) (row cc : Nat) :
    WF (QR.fillCell bits row cc mi).1 n := by
  unfold QR.fillCell
  split
  · dsimp only
    split
    · exact (h.mset ..).mset ..
    · exact h.mset ..
  · exact h

theorem WF.fillRow {mi : Mat × Nat} {n : Nat} (h : WF mi.1 n)
    (bits : List Nat) (col row : Nat) :
    WF (QR.fillRow bits col mi row).1 n := by
  unfold QR.fillRow
  exact foldl_inv (fun (mi : Mat × Nat) => WF mi.1 n) _ (fun mi c hm => hm.fillCell ..) _ _ h

theorem WF.fillStrip {mi : Mat × Nat} {n : Nat} (h : WF mi.1 n)
    (bits : List Nat) (col : Nat) (rows : List Nat) :
    WF (QR.fillStrip bits mi col rows).1 n := by
  unfold QR.fillStrip
  exact foldl_inv (fun (mi : Mat × Nat) => WF mi.1 n) _ (fun mi row hm => hm.fillRow ..) _ _ h

theorem WF.fillCols {n : Nat} (bits : List Nat) (size : Nat) :
    ∀ (fuel : Nat) (m : Mat) (i col : Nat) (dir : Int), WF m n →
      WF (QR.fillCols bits size fuel m i col dir) n := by
  intro fuel
  induction fuel with
  | zero => intro m i col dir h; exact h
  | succ fuel ih =>
    intro m i col dir h
    unfold QR.fillCols
    split
    · exact ih _ _ _ _ (h.fillStrip ..)
    · exact h

theorem WF.fillData {m : Mat} {n : Nat} (h : WF m n)
    (data : List Nat) (version : Nat) :
    WF (QR.fillData m data version) n := by
  unfold QR.fillData
  exact WF.fillCols _ _ _ _ _ _ _ h

theorem WF.applyMask {m : Mat} {n : Nat} (h : WF m n)
    (data : List Nat) (version : Nat) (ecl : Nat) :
    WF (QR.applyMask m data version ecl) n :=
  (h.placePatterns _).fillData _ _

theorem generateQR_WF (data : List Nat) (ecl : ECL) :
    WF (generateQR data ecl)
      (getVersion data.length ecl * 4 + 17) := by
  unfold generateQR
  exact (WF.createMatrix _).applyMask ..

theorem generateQR_length (data : List Nat) (ecl : ECL) :
    (generateQR data ecl).length = getVersion data.length ecl * 4 + 17 :=
  (generateQR_WF data ecl).1

/-!
## Agreement between the list grid and the bitmask mirror
-/

theorem key_inj {size r c r' c' : Nat} (hc : c < size) (hc' : c' < size)
    (h : r * size + c = r' * size + c') : r = r' ∧ c = c' := by
  have h1 : (r * size + c) / size = r := by
    rw [Nat.mul_comm, Nat.mul_add_div (by omega : 0 < size), Nat.div_eq_of_lt hc]
    omega
  have h2 : (r' * size + c') / size = r' := by
    rw [Nat.mul_comm, Nat.mul_add_div (by omega : 0 < size), Nat.div_eq_of_lt hc']
    omega
  have hr : r = r' := by rw [← h1, ← h2, h]
  subst hr
  exact ⟨rfl, Nat.add_left_cancel h⟩

theorem testBit_one_shiftLeft (k j : Nat) :
    (1 <<< k).testBit j = decide (k = j) := by
  rw [Nat.one_shiftLeft, Nat.testBit_two_pow]

theorem bget_bset_same {size r c : Nat} (s : BMat) (v : Bool)
    (hr : r < size) (hc : c < size) :
    bget size (bset size s r c v) r c = some v := by
  have hset : (s.1 ||| 1 <<< (r * size + c)).testBit (r * size + c) = true := by
    rw [Nat.testBit_or, testBit_one_shiftLeft]
    simp
  rcases v with _ | _
  · have hval : (s.2 ^^^ (s.2 &&& 1 <<< (r * size + c))).testBit (r * size + c)
        = false := by
      rw [Nat.testBit_xor, Nat.testBit_and, testBit_one_shiftLeft]
      rcases hb : s.2.testBit (r * size + c) <;> simp [hb]
    simp [bget, bset, hr, hc, hset, hval]
  · have hval : (s.2 ||| 1 <<< (r * size + c)).testBit (r * size + c) = true := by
      rw [Nat.testBit_or, testBit_one_shiftLeft]
      simp
    simp [bget, bset, hr, hc, hset, hval]

theorem bget_bset_ne {size r c r' c' : Nat} (s : BMat) (v : Bool)
    (h : ¬(r' = r ∧ c' = c)) (hr' : r' < size) (hc' : c' < size) :
    bget size (bset size s r c v) r' c' = bget size s r' c' := by
  by_cases hin : r < size ∧ c < size
  · have hkey : decide (r * size + c = r' * size + c') = false := by
      simp only [decide_eq_false_iff_not]
      intro hk
      have := key_inj hin.2 hc' hk
      exact h ⟨this.1.symm, this.2.symm⟩
    have hset : (s.1 ||| 1 <<< (r * size + c)).testBit (r' * size + c') =
        s.1.testBit (r' * size + c') := by
      rw [Nat.testBit_or, testBit_one_shiftLeft, hkey, Bool.or_false]
    rcases v with _ | _
    · have hval : (s.2 ^^^ (s.2 &&& 1 <<< (r * size + c))).testBit (r' * size + c') =
          s.2.testBit (r' * size + c') := by
        rw [Nat.testBit_xor, Nat.testBit_and, testBit_one_shiftLeft, hkey]
        rcases hb : s.2.testBit (r' * size + c') <;> simp [hb]
      simp [bget, bset, hin.1, hin.2, hset, hval]
    · have hval : (s.2 ||| 1 <<< (r * size + c)).testBit (r' * size + c') =
          s.2.testBit (r' * size + c') := by
        rw [Nat.testBit_or, testBit_one_shiftLeft, hkey, Bool.or_false]
      simp [bget, bset, hin.1, hin.2, hset, hval]
  · simp [bget, bset, hin]

theorem Agrees.mset_bset {size : Nat} {m : Mat} {s : BMat}
    (hwf : WF m size) (h : Agrees size m s) (r c : Nat) (v : Bool) :
    Agrees size (mset m r c v) (bset size s r c v) := by
  intro r' c' hr' hc'
  by_cases he : r' = r ∧ c' = c
  · obtain ⟨rfl, rfl⟩ := he
    rw [hwf.mget_mset_self' hr' hc', bget_bset_same _ _ hr' hc']
  · rw [mget_mset_ne _ _ he, bget_bset_ne _ _ he hr' hc']
    exact h _ _ hr' hc'

/-- On a well-formed grid, the list read and the mirror read agree at
every index, in bounds or not. -/
theorem read_eq {size : Nat} {m : Mat} {s : BMat}
    (hwf : WF m size) (h : Agrees size m s) (r c : Nat) :
    mget m r c = bget size s r c := by
  by_cases hr : r < size
  · by_cases hc : c < size
    · exact h _ _ hr hc
    · rw [mget_oob m hwf (Or.inr (Nat.le_of_not_lt hc))]
      unfold bget
      rw [if_neg (fun hin => hc hin.2)]
  · rw [mget_oob m hwf (Or.inl (Nat.le_of_not_lt hr))]
    unfold bget
    rw [if_neg (fun hin => hr hin.1)]

theorem isNullAt_eq {size : Nat} {m : Mat} {s : BMat}
    (hwf : WF m size) (h : Agrees size m s) (row col : Nat) :
    isNullAt m row col = isNullAtB size s row col := by
  unfold isNullAt isNullAtB
  by_cases hr : row < size
  · rcases hrowq : m[row]? with _ | rowl
    · rw [List.getElem?_eq_none_iff] at hrowq
      have := hwf.1
      omega
    · have hrl : rowl.length = size := hwf.2 rowl (List.getElem?_mem hrowq)
      by_cases hc : col < size
      · have hcq : rowl[col]? = some rowl[col] :=
          List.getElem?_eq_getElem (by omega)
        have hmval : mget m row col = rowl[col] := by
          rw [mget_eq, hrowq]
          simp [hcq]
        rw [read_eq hwf h] at hmval
        simp [hcq, hr, hc, hmval]
      · have hcq : rowl[col]? = none := List.getElem?_eq_none (by omega)
        have hbval : bget size s row col = none := by
          unfold bget
          rw [if_neg (fun hin => hc hin.2)]
        simp [hrowq, hcq, hc]
  · have hrq : m[row]? = none := List.getElem?_eq_none (by
      have := hwf.1
      omega)
    simp [hrq, hr]

theorem agrees_empty (size : Nat) : Agrees size (createMatrix size) emptyB := by
  intro r c hr hc
  rw [mget_createMatrix]
  unfold bget emptyB
  rw [if_pos ⟨hr, hc⟩]
  simp [Nat.zero_testBit]

theorem agrees_addFinderPattern {size : Nat} {m : Mat} {s : BMat}
    (h : WF m size ∧ Agrees size m s) (row col : Int) :
    WF (addFinderPattern m row col) size ∧
      Agrees size (addFinderPattern m row col) (addFinderPatternB size s row col) := by
  unfold addFinderPattern addFinderPatternB
  refine foldl_rel (fun (m : Mat) (s : BMat) => WF m size ∧ Agrees size m s) _ _
    (fun m s r hms => ?_) _ _ _ h
  refine foldl_rel (fun (m : Mat) (s : BMat) => WF m size ∧ Agrees size m s) _ _
    (fun m s c hms => ?_) _ _ _ hms
  dsimp only
  have hlen : ((m.length : Nat) : Int) = ((size : Nat) : Int) := by
    exact_mod_cast congrArg (Nat.cast : Nat → Int) hms.1.1
  rw [hlen]
  split
  next hcond => exact hms
  next hcond => exact ⟨hms.1.mset .., Agrees.mset_bset hms.1 hms.2 _ _ _⟩

theorem agrees_addTiming {size : Nat} {m : Mat} {s : BMat}
    (h : WF m size ∧ Agrees size m s) :
    WF (addTiming m size) size ∧
      Agrees size (addTiming m size) (addTimingB size s) := by
  unfold addTiming addTimingB
  refine foldl_rel (fun (m : Mat) (s : BMat) => WF m size ∧ Agrees size m s) _ _
    (fun m s i hms => ?_) _ _ _ h
  dsimp only
  exact ⟨(hms.1.mset ..).mset ..,
    Agrees.mset_bset (hms.1.mset ..) (Agrees.mset_bset hms.1 hms.2 _ _ _) _ _ _⟩

theorem agrees_addAlignmentPattern {size : Nat} {m : Mat} {s : BMat}
    (h : WF m size ∧ Agrees size m s) (row col : Nat) :
    WF (addAlignmentPattern m row col) size ∧
      Agrees size (addAlignmentPattern m row col)
        (addAlignmentPatternB size s row col) := by
  unfold addAlignmentPattern addAlignmentPatternB
  refine foldl_rel (fun (m : Mat) (s : BMat) => WF m size ∧ Agrees size m s) _ _
    (fun m s r hms => ?_) _ _ _ h
  refine foldl_rel (fun (m : Mat) (s : BMat) => WF m size ∧ Agrees size m s) _ _
    (fun m s c hms => ?_) _ _ _ hms
  dsimp only
  exact ⟨hms.1.mset .., Agrees.mset_bset hms.1 hms.2 _ _ _⟩

theorem agrees_placeAlignments {size : Nat} {m : Mat} {s : BMat}
    (h : WF m size ∧ Agrees size m s) (version : Nat) :
    WF (placeAlignments m version) size ∧
      Agrees size (placeAlignments m version)
        (placeAlignmentsB size s version) := by
  unfold placeAlignments placeAlignmentsB
  split
  · refine foldl_rel (fun (m : Mat) (s : BMat) => WF m size ∧ Agrees size m s) _ _
      (fun m s row hms => ?_) _ _ _ h
    refine foldl_rel (fun (m : Mat) (s : BMat) => WF m size ∧ Agrees size m s) _ _
      (fun m s col hms => ?_) _ _ _ hms
    dsimp only
    rw [isNullAt_eq hms.1 hms.2]
    split
    · exact agrees_addAlignmentPattern hms ..
    · exact hms
  · exact h

theorem agrees_placePatterns {size : Nat} {m : Mat} {s : BMat}
    (h : WF m size ∧ Agrees size m s) (version : Nat) :
    WF (placePatterns m version) size ∧
      Agrees size (placePatterns m version) (placePatternsB size s version) := by
  unfold placePatterns placePatternsB
  dsimp only
  rw [h.1.1]
  exact agrees_placeAlignments (agrees_addTiming (agrees_addFinderPattern
    (agrees_addFinderPattern (agrees_addFinderPattern h ..) ..) ..)) _

theorem chk_mset_bset {size : Nat} {mb : Mat × Bool} {sb : BMat × Bool}
    (h : WF mb.1 size ∧ Agrees size mb.1 sb.1 ∧ mb.2 = sb.2) (r c : Nat)
    (v : Bool) :
    WF (msetChk mb r c v).1 size ∧
      Agrees size (msetChk mb r c v).1 (bsetChk size sb r c v).1 ∧
      (msetChk mb r c v).2 = (bsetChk size sb r c v).2 := by
  refine ⟨h.1.mset .., Agrees.mset_bset h.1 h.2.1 _ _ _, ?_⟩
  show (mb.2 || decide (mget mb.1 r c ≠ none)) =
    (sb.2 || decide (bget size sb.1 r c ≠ none))
  rw [h.2.2, read_eq h.1 h.2.1]

theorem agrees_addFinderPatternChk {size : Nat} {mb : Mat × Bool}
    {sb : BMat × Bool}
    (h : WF mb.1 size ∧ Agrees size mb.1 sb.1 ∧ mb.2 = sb.2) (row col : Int) :
    WF (addFinderPatternChk mb row col).1 size ∧
      Agrees size (addFinderPatternChk mb row col).1
        (addFinderPatternChkB size sb row col).1 ∧
      (addFinderPatternChk mb row col).2 =
        (addFinderPatternChkB size sb row col).2 := by
  unfold addFinderPatternChk addFinderPatternChkB
  refine foldl_rel (fun (mb : Mat × Bool) (sb : BMat × Bool) =>
    WF mb.1 size ∧ Agrees size mb.1 sb.1 ∧ mb.2 = sb.2) _ _
    (fun mb sb r hms => ?_) _ _ _ h
  refine foldl_rel (fun (mb : Mat × Bool) (sb : BMat × Bool) =>
    WF mb.1 size ∧ Agrees size mb.1 sb.1 ∧ mb.2 = sb.2) _ _
    (fun mb sb c hms => ?_) _ _ _ hms
  dsimp only
  have hlen : ((mb.1.length : Nat) : Int) = ((size : Nat) : Int) := by
    exact_mod_cast congrArg (Nat.cast : Nat → Int) hms.1.1
  rw [hlen]
  split
  next hcond => exact hms
  next hcond => exact chk_mset_bset hms ..

theorem agrees_addTimingChk {size : Nat} {mb : Mat × Bool} {sb : BMat × Bool}
    (h : WF mb.1 size ∧ Agrees size mb.1 sb.1 ∧ mb.2 = sb.2) :
    WF (addTimingChk mb size).1 size ∧
      Agrees size (addTimingChk mb size).1 (addTimingChkB size sb).1 ∧
      (addTimingChk mb size).2 = (addTimingChkB size sb).2 := by
  unfold addTimingChk addTimingChkB
  refine foldl_rel (fun (mb : Mat × Bool) (sb : BMat × Bool) =>
    WF mb.1 size ∧ Agrees size mb.1 sb.1 ∧ mb.2 = sb.2) _ _
    (fun mb sb i hms => ?_) _ _ _ h
  dsimp only
  exact chk_mset_bset (chk_mset_bset hms ..) ..

theorem agrees_addAlignmentPatternChk {size : Nat} {mb : Mat × Bool}
    {sb : BMat × Bool}
    (h : WF mb.1 size ∧ Agrees size mb.1 sb.1 ∧ mb.2 = sb.2) (row col : Nat) :
    WF (addAlignmentPatternChk mb row col).1 size ∧
      Agrees size (addAlignmentPatternChk mb row col).1
        (addAlignmentPatternChkB size sb row col).1 ∧
      (addAlignmentPatternChk mb row col).2 =
        (addAlignmentPatternChkB size sb row col).2 := by
  unfold addAlignmentPatternChk addAlignmentPatternChkB
  refine foldl_rel (fun (mb : Mat × Bool) (sb : BMat × Bool) =>
    WF mb.1 size ∧ Agrees size mb.1 sb.1 ∧ mb.2 = sb.2) _ _
    (fun mb sb r hms => ?_) _ _ _ h
  refine foldl_rel (fun (mb : Mat × Bool) (sb : BMat × Bool) =>
    WF mb.1 size ∧ Agrees size mb.1 sb.1 ∧ mb.2 = sb.2) _ _
    (fun mb sb c hms => ?_) _ _ _ hms
  dsimp only
  exact chk_mset_bset hms ..

theorem agrees_placeAlignmentsChk {size : Nat} {mb : Mat × Bool}
    {sb : BMat × Bool}
    (h : WF mb.1 size ∧ Agrees size mb.1 sb.1 ∧ mb.2 = sb.2) (version : Nat) :
    WF (placeAlignmentsChk mb version).1 size ∧
      Agrees size (placeAlignmentsChk mb version).1
        (placeAlignmentsChkB size sb version).1 ∧
      (placeAlignmentsChk mb version).2 =
        (placeAlignmentsChkB size sb version).2 := by
  unfold placeAlignmentsChk placeAlignmentsChkB
  split
  · refine foldl_rel (fun (mb : Mat × Bool) (sb : BMat × Bool) =>
      WF mb.1 size ∧ Agrees size mb.1 sb.1 ∧ mb.2 = sb.2) _ _
      (fun mb sb row hms => ?_) _ _ _ h
    refine foldl_rel (fun (mb : Mat × Bool) (sb : BMat × Bool) =>
      WF mb.1 size ∧ Agrees size mb.1 sb.1 ∧ mb.2 = sb.2) _ _
      (fun mb sb col hms => ?_) _ _ _ hms
    dsimp only
    rw [isNullAt_eq hms.1 hms.2.1]
    split
    · exact agrees_addAlignmentPatternChk hms ..
    · exact hms
  · exact h

theorem agrees_placePatternsChk {size : Nat} {mb : Mat × Bool}
    {sb : BMat × Bool}
    (h : WF mb.1 size ∧ Agrees size mb.1 sb.1 ∧ mb.2 = sb.2) (version : Nat) :
    WF (placePatternsChk mb version).1 size ∧
      Agrees size (placePatternsChk mb version).1
        (placePatternsChkB size sb version).1 ∧
      (placePatternsChk mb version).2 =
        (placePatternsChkB size sb version).2 := by
  unfold placePatternsChk placePatternsChkB
  dsimp only
  rw [h.1.1]
  exact agrees_placeAlignmentsChk (agrees_addTimingChk (agrees_addFinderPatternChk
    (agrees_addFinderPatternChk (agrees_addFinderPatternChk h ..) ..) ..)) _

/-!
## The checked run computes the same grid as the plain run
-/

theorem chkFst_addFinderPattern (mb : Mat × Bool) (row col : Int) :
    (addFinderPatternChk mb row col).1 = addFinderPattern mb.1 row col := by
  unfold addFinderPatternChk addFinderPattern
  refine foldl_rel (fun (mb : Mat × Bool) (m : Mat) => mb.1 = m) _ _
    (fun mb m r hrel => ?_) _ _ _ rfl
  refine foldl_rel (fun (mb : Mat × Bool) (m : Mat) => mb.1 = m) _ _
    (fun mb m c hrel => ?_) _ _ _ hrel
  dsimp only
  rw [← hrel]
  split
  · rfl
  · rfl

theorem chkFst_addTiming (mb : Mat × Bool) (size : Nat) :
    (addTimingChk mb size).1 = addTiming mb.1 size := by
  unfold addTimingChk addTiming
  refine foldl_rel (fun (mb : Mat × Bool) (m : Mat) => mb.1 = m) _ _
    (fun mb m i hrel => ?_) _ _ _ rfl
  dsimp only
  rw [← hrel]
  rfl

theorem chkFst_addAlignmentPattern (mb : Mat × Bool) (row col : Nat) :
    (addAlignmentPatternChk mb row col).1 = addAlignmentPattern mb.1 row col := by
  unfold addAlignmentPatternChk addAlignmentPattern
  refine foldl_rel (fun (mb : Mat × Bool) (m : Mat) => mb.1 = m) _ _
    (fun mb m r hrel => ?_) _ _ _ rfl
  refine foldl_rel (fun (mb : Mat × Bool) (m : Mat) => mb.1 = m) _ _
    (fun mb m c hrel => ?_) _ _ _ hrel
  dsimp only
  rw [← hrel]
  rfl

theorem chkFst_placeAlignments (mb : Mat × Bool) (version : Nat) :
    (placeAlignmentsChk mb version).1 = placeAlignments mb.1 version := by
  unfold placeAlignmentsChk placeAlignments
  split
  · refine foldl_rel (fun (mb : Mat × Bool) (m : Mat) => mb.1 = m) _ _
      (fun mb m row hrel => ?_) _ _ _ rfl
    refine foldl_rel (fun (mb : Mat × Bool) (m : Mat) => mb.1 = m) _ _
      (fun mb m col hrel => ?_) _ _ _ hrel
    dsimp only
    rw [← hrel]
    split
    · exact chkFst_addAlignmentPattern ..
    · rfl
  · rfl

theorem chkFst_placePatterns (mb : Mat × Bool) (version : Nat) :
    (placePatternsChk mb version).1 = placePatterns mb.1 version := by
  unfold placePatternsChk placePatterns
  dsimp only
  rw [chkFst_placeAlignments, chkFst_addTiming, chkFst_addFinderPattern,
    chkFst_addFinderPattern, chkFst_addFinderPattern]

theorem chkFst_fillCell (bits : List Nat) (row cc : Nat)
    (mib : (Mat × Nat) × Bool) :
    (fillCellChk bits row cc mib).1 = fillCell bits row cc mib.1 := by
  unfold fillCellChk fillCell
  split
  · dsimp only
    split
    · rw [mset_mset]
      rfl
    · rfl
  · rfl

theorem chkFst_fillRow (bits : List Nat) (col : Nat)
    (mib : (Mat × Nat) × Bool) (row : Nat) :
    (fillRowChk bits col mib row).1 = fillRow bits col mib.1 row := by
  unfold fillRowChk fillRow
  simp only [List.foldl_cons, List.foldl_nil, chkFst_fillCell]

theorem chkFst_fillStrip (bits : List Nat) (mib : (Mat × Nat) × Bool)
    (col : Nat) (rows : List Nat) :
    (fillStripChk bits mib col rows).1 = fillStrip bits mib.1 col rows := by
  unfold fillStripChk fillStrip
  refine foldl_rel (fun (mib : (Mat × Nat) × Bool) (mi : Mat × Nat) => mib.1 = mi)
    _ _ (fun mib mi row hrel => ?_) _ _ _ rfl
  dsimp only at hrel ⊢
  rw [chkFst_fillRow, hrel]

theorem chkFst_fillCols (bits : List Nat) (size : Nat) :
    ∀ (fuel : Nat) (mib : (Mat × Nat) × Bool) (col : Nat) (dir : Int),
      (fillColsChk bits size fuel mib col dir).1.1 =
        fillCols bits size fuel mib.1.1 mib.1.2 col dir := by
  intro fuel
  induction fuel with
  | zero => intro mib col dir; rfl
  | succ fuel ih =>
    intro mib col dir
    unfold fillColsChk fillCols
    split
    · rw [ih]
      rw [chkFst_fillStrip]
    · rfl

theorem chkSnd_fillCell (bits : List Nat) (row cc : Nat)
    (mib : (Mat × Nat) × Bool) :
    (fillCellChk bits row cc mib).2 = mib.2 := by
  unfold fillCellChk
  split
  next hnull =>
    show (mib.2 || decide (mget mib.1.1 row cc ≠ none)) = mib.2
    rw [hnull]
    simp
  next hnull => rfl

theorem chkSnd_fillRow (bits : List Nat) (col : Nat)
    (mib : (Mat × Nat) × Bool) (row : Nat) :
    (fillRowChk bits col mib row).2 = mib.2 := by
  unfold fillRowChk
  simp only [List.foldl_cons, List.foldl_nil, chkSnd_fillCell]

theorem chkSnd_fillStrip (bits : List Nat) (mib : (Mat × Nat) × Bool)
    (col : Nat) (rows : List Nat) :
    (fillStripChk bits mib col rows).2 = mib.2 := by
  unfold fillStripChk
  induction rows generalizing mib with
  | nil => rfl
  | cons row rows ih =>
    rw [List.foldl_cons, ih, chkSnd_fillRow]

theorem chkSnd_fillCols (bits : List Nat) (size : Nat) :
    ∀ (fuel : Nat) (mib : (Mat × Nat) × Bool) (col : Nat) (dir : Int),
      (fillColsChk bits size fuel mib col dir).2 = mib.2 := by
  intro fuel
  induction fuel with
  | zero => intro mib col dir; rfl
  | succ fuel ih =>
    intro mib col dir
    unfold fillColsChk
    split
    · rw [ih, chkSnd_fillStrip]
    · rfl

theorem fillDataChk_eq (mb : Mat × Bool) (data : List Nat) (version : Nat) :
    fillDataChk mb data version = (fillData mb.1 data version, mb.2) := by
  unfold fillDataChk fillData
  dsimp only
  rw [Prod.ext_iff]
  constructor
  · exact chkFst_fillCols ..
  · exact chkSnd_fillCols ..

theorem applyMaskChk_eq (mb : Mat × Bool) (data : List Nat) (version ecl : Nat) :
    applyMaskChk mb data version ecl =
      (applyMask mb.1 data version ecl, (placePatternsChk mb version).2) := by
  unfold applyMaskChk applyMask
  rw [fillDataChk_eq, chkFst_placePatterns]

/-!
## Value preservation and coverage of the data phase
-/

theorem Pres.refl (m : Mat) : Pres m m := fun _ _ _ => rfl

theorem Pres.trans {a b c : Mat} (h1 : Pres a b) (h2 : Pres b c) : Pres a c := by
  intro r cc hne
  rw [h2 r cc (by rw [h1 r cc hne]; exact hne), h1 r cc hne]

theorem fillCell_pres (bits : List Nat) (row cc : Nat) (mi : Mat × Nat) :
    Pres mi.1 (fillCell bits row cc mi).1 := by
  unfold fillCell
  split
  next hnull =>
    intro r c hne
    have he : ¬(r = row ∧ c = cc) := by
      rintro ⟨rfl, rfl⟩
      exact hne hnull
    dsimp only
    split
    · rw [mget_mset_ne _ _ he, mget_mset_ne _ _ he]
    · rw [mget_mset_ne _ _ he]
  next hnull => exact Pres.refl _

theorem fillRow_pres (bits : List Nat) (col : Nat) (mi : Mat × Nat) (row : Nat) :
    Pres mi.1 (fillRow bits col mi row).1 := by
  unfold fillRow
  simp only [List.foldl_cons, List.foldl_nil]
  exact Pres.trans (fillCell_pres bits row (col - 0) mi)
    (fillCell_pres bits row (col - 1) (fillCell bits row (col - 0) mi))

theorem fillStrip_pres (bits : List Nat) (mi : Mat × Nat) (col : Nat)
    (rows : List Nat) : Pres mi.1 (fillStrip bits mi col rows).1 := by
  unfold fillStrip
  induction rows generalizing mi with
  | nil => exact Pres.refl _
  | cons row rows ih =>
    rw [List.foldl_cons]
    exact Pres.trans (fillRow_pres bits col mi row) (ih _)

theorem fillCols_succ (bits : List Nat) (size fuel : Nat) (m : Mat)
    (i col : Nat) (dir : Int) (h : col > 0) :
    fillCols bits size (fuel + 1) m i col dir =
      fillCols bits size fuel
        (fillStrip bits (m, i) (if col = 6 then col - 1 else col)
          (if dir < 0 then (List.range size).reverse else List.range size)).1
        (fillStrip bits (m, i) (if col = 6 then col - 1 else col)
          (if dir < 0 then (List.range size).reverse else List.range size)).2
        ((if col = 6 then col - 1 else col) - 2) (-dir) := by
  conv_lhs => unfold fillCols
  rw [if_pos h]

theorem fillCols_stop (bits : List Nat) (size fuel : Nat) (m : Mat)
    (i col : Nat) (dir : Int) (h : ¬col > 0) :
    fillCols bits size (fuel + 1) m i col dir = m := by
  conv_lhs => unfold fillCols
  rw [if_neg h]

theorem visitedColsGo_succ (fuel col : Nat) (h : col > 0) :
    visitedColsGo (fuel + 1) col =
      (if col = 6 then col - 1 else col) ::
        ((if col = 6 then col - 1 else col) - 1) ::
        visitedColsGo fuel ((if col = 6 then col - 1 else col) - 2) := by
  conv_lhs => unfold visitedColsGo
  rw [if_pos h]

theorem visitedColsGo_stop (fuel col : Nat) (h : ¬col > 0) :
    visitedColsGo (fuel + 1) col = [] := by
  conv_lhs => unfold visitedColsGo
  rw [if_neg h]

theorem fillCols_pres (bits : List Nat) (size : Nat) :
    ∀ (fuel : Nat) (m : Mat) (i col : Nat) (dir : Int),
      Pres m (fillCols bits size fuel m i col dir) := by
  intro fuel
  induction fuel with
  | zero => intro m i col dir; exact Pres.refl _
  | succ fuel ih =>
    intro m i col dir
    by_cases h : col > 0
    · rw [fillCols_succ bits size fuel m i col dir h]
      exact Pres.trans (fillStrip_pres bits (m, i)
        (if col = 6 then col - 1 else col)
        (if dir < 0 then (List.range size).reverse else List.range size))
        (ih _ _ _ _)
    · rw [fillCols_stop bits size fuel m i col dir h]
      exact Pres.refl _

theorem fillData_pres (m : Mat) (data : List Nat) (version : Nat) :
    Pres m (fillData m data version) := by
  unfold fillData
  exact fillCols_pres (mkBits data version) m.length m.length m 0 (m.length - 1) (-1)

theorem fillCell_covers {mi : Mat × Nat} {n row cc : Nat} (hwf : WF mi.1 n)
    (hr : row < n) (hc : cc < n) (bits : List Nat) :
    mget (fillCell bits row cc mi).1 row cc ≠ none := by
  unfold fillCell
  split
  next hnull =>
    dsimp only
    split
    · rw [(hwf.mset ..).mget_mset_self' hr hc]
      exact fun h => Option.noConfusion h
    · rw [hwf.mget_mset_self' hr hc]
      exact fun h => Option.noConfusion h
  next hnull => exact hnull

theorem fillRow_covers {mi : Mat × Nat} {n col row : Nat} (hwf : WF mi.1 n)
    (hrow : row < n) (hcol : col < n) (bits : List Nat) :
    mget (fillRow bits col mi row).1 row col ≠ none ∧
      mget (fillRow bits col mi row).1 row (col - 1) ≠ none := by
  unfold fillRow
  simp only [List.foldl_cons, List.foldl_nil]
  constructor
  · have h1 : mget (fillCell bits row (col - 0) mi).1 row col ≠ none := by
      have h0 := @fillCell_covers mi n row (col - 0) hwf hrow (by omega) bits
      simpa using h0
    have hp := fillCell_pres bits row (col - 1) (fillCell bits row (col - 0) mi)
    rw [hp _ _ h1]
    exact h1
  · exact fillCell_covers (hwf.fillCell ..) hrow (by omega) bits

theorem fillStrip_covers {n col : Nat} (bits : List Nat) :
    ∀ (rows : List Nat) (mi : Mat × Nat), WF mi.1 n → col < n →
      (∀ r ∈ rows, r < n) → ∀ r0 ∈ rows,
      mget (fillStrip bits mi col rows).1 r0 col ≠ none ∧
        mget (fillStrip bits mi col rows).1 r0 (col - 1) ≠ none := by
  intro rows
  induction rows with
  | nil => intro mi _ _ _ r0 h; exact absurd h (List.not_mem_nil r0)
  | cons row rows ih =>
    intro mi hwf hcol hrows r0 hr0
    have hstrip : fillStrip bits mi col (row :: rows) =
        fillStrip bits (fillRow bits col mi row) col rows := by
      unfold fillStrip
      rw [List.foldl_cons]
    rw [hstrip]
    rcases List.mem_cons.1 hr0 with rfl | hmem
    · have hcov := fillRow_covers hwf (hrows r0 (List.mem_cons_self ..)) hcol bits
      have hp := fillStrip_pres bits (fillRow bits col mi r0) col rows
      exact ⟨by rw [hp _ _ hcov.1]; exact hcov.1, by rw [hp _ _ hcov.2]; exact hcov.2⟩
    · exact ih _ (hwf.fillRow ..) hcol (fun r h => hrows r (List.mem_cons_of_mem _ h))
        r0 hmem

theorem mem_rows {n r : Nat} (dir : Int) (hr : r < n) :
    r ∈ (if dir < 0 then (List.range n).reverse else List.range n) := by
  split
  · exact List.mem_reverse.2 (List.mem_range.2 hr)
  · exact List.mem_range.2 hr

theorem fillCols_covers {n : Nat} (bits : List Nat) :
    ∀ (fuel : Nat) (m : Mat) (i col : Nat) (dir : Int), WF m n → col < n →
      ∀ c' ∈ visitedColsGo fuel col, ∀ r, r < n →
      mget (fillCols bits n fuel m i col dir) r c' ≠ none := by
  intro fuel
  induction fuel with
  | zero => intro m i col dir _ _ c' hc' r _; exact absurd hc' (List.not_mem_nil c')
  | succ fuel ih =>
    intro m i col dir hwf hcol c' hc' r hr
    by_cases hpos : col > 0
    · rw [visitedColsGo_succ fuel col hpos] at hc'
      rw [fillCols_succ bits n fuel m i col dir hpos]
      have hcol' : (if col = 6 then col - 1 else col) < n := by
        split <;> omega
      have hrows : ∀ r' ∈ (if dir < 0 then (List.range n).reverse
          else List.range n), r' < n := by
        intro r' h
        split at h
        · exact List.mem_range.1 (List.mem_reverse.1 h)
        · exact List.mem_range.1 h
      have hp := fillCols_pres bits n fuel
        (fillStrip bits (m, i) (if col = 6 then col - 1 else col)
          (if dir < 0 then (List.range n).reverse else List.range n)).1
        (fillStrip bits (m, i) (if col = 6 then col - 1 else col)
          (if dir < 0 then (List.range n).reverse else List.range n)).2
        ((if col = 6 then col - 1 else col) - 2) (-dir)
      rcases List.mem_cons.1 hc' with rfl | hc2
      · have hcov := (fillStrip_covers bits _ (m, i) hwf hcol' hrows r
          (mem_rows dir hr)).1
        rw [hp _ _ hcov]
        exact hcov
      · rcases List.mem_cons.1 hc2 with rfl | hc3
        · have hcov := (fillStrip_covers bits _ (m, i) hwf hcol' hrows r
            (mem_rows dir hr)).2
          rw [hp _ _ hcov]
          exact hcov
        · exact ih _ _ _ _ (hwf.fillStrip ..) (by omega) c' hc3 r hr
    · rw [visitedColsGo_stop fuel col hpos] at hc'
      exact absurd hc' (List.not_mem_nil c')

theorem visitedColsGo_congr :
    ∀ (f1 f2 col : Nat), col < f1 → col < f2 →
      visitedColsGo f1 col = visitedColsGo f2 col := by
  intro f1
  induction f1 with
  | zero => intro f2 col h _; omega
  | succ f1 ih =>
    intro f2 col h1 h2
    rcases f2 with _ | f2
    · omega
    · by_cases hpos : col > 0
      · rw [visitedColsGo_succ f1 col hpos, visitedColsGo_succ f2 col hpos]
        have hlt : (if col = 6 then col - 1 else col) - 2 < f1 ∧
            (if col = 6 then col - 1 else col) - 2 < f2 := by
          constructor <;> (split <;> omega)
        rw [ih f2 _ hlt.1 hlt.2]
      · rw [visitedColsGo_stop f1 col hpos, visitedColsGo_stop f2 col hpos]

/-!
## Version selection
-/

theorem getVersionLoop_zero (len v : Nat) : getVersionLoop len 0 v = 20 := rfl

theorem getVersionLoop_succ (len fuel v : Nat) :
    getVersionLoop len (fuel + 1) v =
      if v ≤ 20 then
        if len ≤ caps.getD (v - 1) 0 then v else getVersionLoop len fuel (v + 1)
      else 20 := rfl

theorem getVersionLoop_bounds (len : Nat) :
    ∀ fuel v, 1 ≤ v → 1 ≤ getVersionLoop len fuel v ∧ getVersionLoop len fuel v ≤ 20 := by
  intro fuel
  induction fuel with
  | zero => intro v _; rw [getVersionLoop_zero]; exact ⟨by omega, by omega⟩
  | succ fuel ih =>
    intro v h1
    rw [getVersionLoop_succ]
    by_cases hv : v ≤ 20
    · rw [if_pos hv]
      by_cases hc : len ≤ caps.getD (v - 1) 0
      · rw [if_pos hc]
        exact ⟨h1, hv⟩
      · rw [if_neg hc]
        exact ih (v + 1) (by omega)
    · rw [if_neg hv]
      exact ⟨by omega, by omega⟩

theorem getVersionLoop_spec (len : Nat) (hcap : len ≤ capsGet 20) :
    ∀ fuel v, v + fuel = 22 → 1 ≤ v →
      (∀ w, 1 ≤ w → w < v → capsGet w < len) →
      1 ≤ getVersionLoop len fuel v ∧ getVersionLoop len fuel v ≤ 20 ∧
        len ≤ capsGet (getVersionLoop len fuel v) ∧
        ∀ w, 1 ≤ w → w < getVersionLoop len fuel v → capsGet w < len := by
  intro fuel
  induction fuel with
  | zero =>
    intro v hv h1 hfail
    rw [getVersionLoop_zero]
    refine ⟨by omega, by omega, hcap, fun w h1w hw => hfail w h1w (by omega)⟩
  | succ fuel ih =>
    intro v hv h1 hfail
    rw [getVersionLoop_succ]
    by_cases hv20 : v ≤ 20
    · rw [if_pos hv20]
      by_cases hc : len ≤ caps.getD (v - 1) 0
      · rw [if_pos hc]
        exact ⟨h1, hv20, hc, hfail⟩
      · rw [if_neg hc]
        refine ih (v + 1) (by omega) (by omega) (fun w h1w hw => ?_)
        rcases Nat.lt_or_ge w v with hwv | hwv
        · exact hfail w h1w hwv
        · have hw' : w = v := by omega
          subst hw'
          exact Nat.lt_of_not_le hc
    · rw [if_neg hv20]
      refine ⟨by omega, by omega, hcap, fun w h1w hw => hfail w h1w (by omega)⟩

theorem capsGet_20 : capsGet 20 = 858 := rfl

theorem getVersion_spec (L : Nat) (e : ECL) (h : L ≤ 858) :
    1 ≤ getVersion L e ∧ getVersion L e ≤ 20 ∧ L ≤ capsGet (getVersion L e) ∧
      ∀ w, 1 ≤ w → w < getVersion L e → capsGet w < L := by
  have hcap : L ≤ capsGet 20 := by rw [capsGet_20]; exact h
  exact getVersionLoop_spec L hcap 21 1 (by omega) (by omega)
    (fun w h1w hw => by omega)

theorem getVersion_bounds (L : Nat) (e : ECL) :
    1 ≤ getVersion L e ∧ getVersion L e ≤ 20 :=
  getVersionLoop_bounds L 21 1 (by omega)

theorem getVersionLoop_ge (len : Nat) :
    ∀ fuel v, min v 20 ≤ getVersionLoop len fuel v := by
  intro fuel
  induction fuel with
  | zero => intro v; rw [getVersionLoop_zero]; omega
  | succ fuel ih =>
    intro v
    rw [getVersionLoop_succ]
    by_cases hv : v ≤ 20
    · rw [if_pos hv]
      by_cases hc : len ≤ caps.getD (v - 1) 0
      · rw [if_pos hc]
        omega
      · rw [if_neg hc]
        have := ih (v + 1)
        omega
    · rw [if_neg hv]
      omega

theorem getVersionLoop_mono {a b : Nat} (hab : a ≤ b) :
    ∀ fuel v, getVersionLoop a fuel v ≤ getVersionLoop b fuel v := by
  intro fuel
  induction fuel with
  | zero => intro v; rw [getVersionLoop_zero, getVersionLoop_zero]
  | succ fuel ih =>
    intro v
    rw [getVersionLoop_succ, getVersionLoop_succ]
    by_cases hv : v ≤ 20
    · rw [if_pos hv, if_pos hv]
      by_cases hb : b ≤ caps.getD (v - 1) 0
      · rw [if_pos (le_trans hab hb), if_pos hb]
      · by_cases ha : a ≤ caps.getD (v - 1) 0
        · rw [if_pos ha, if_neg hb]
          have := getVersionLoop_ge b fuel (v + 1)
          omega
        · rw [if_neg ha, if_neg hb]
          exact ih (v + 1)
    · rw [if_neg hv, if_neg hv]
    
theorem getVersion_mono {a b : Nat} (hab : a ≤ b) (e e' : ECL) :
    getVersion a e ≤ getVersion b e' :=
  getVersionLoop_mono hab 21 1

/-!
## Bit-stream length
-/

theorem padTerminator_length (bits : List Nat) :
    (padTerminator bits).length = bits.length + (8 - bits.length % 8) % 8 := by
  simp [padTerminator]

theorem padBytesGo_succ (capacity fuel : Nat) (bits : List Nat) (pad : Nat) :
    padBytesGo capacity (fuel + 1) bits pad =
      if bits.length < capacity then
        padBytesGo capacity fuel
          (bits ++ ((List.range 8).reverse.map fun i => (pad >>> i) &&& 1).take
            (capacity - bits.length))
          (if pad = 0xEC then 0x11 else 0xEC)
      else bits := rfl

theorem padBytesGo_length (capacity : Nat) :
    ∀ (fuel : Nat) (bits : List Nat) (pad : Nat), capacity ≤ bits.length + fuel →
      (padBytesGo capacity fuel bits pad).length = max bits.length capacity := by
  intro fuel
  induction fuel with
  | zero =>
    intro bits pad h
    show bits.length = max bits.length capacity
    omega
  | succ fuel ih =>
    intro bits pad h
    rw [padBytesGo_succ]
    by_cases hlt : bits.length < capacity
    · rw [if_pos hlt]
      have htake : (bits ++ ((List.range 8).reverse.map
          fun i => (pad >>> i) &&& 1).take (capacity - bits.length)).length =
          bits.length + min (capacity - bits.length) 8 := by
        simp
      rw [ih _ _ (by omega)]
      omega
    · rw [if_neg hlt]
      omega

theorem dataBits_length : ∀ (data bits : List Nat),
    (data.foldl (fun bits byte =>
      bits ++ ((List.range 8).reverse.map fun i => (byte >>> i) &&& 1)) bits).length
      = bits.length + 8 * data.length := by
  intro data
  induction data with
  | nil => intro bits; simp
  | cons b l ih =>
    intro bits
    rw [List.foldl_cons, ih]
    simp
    omega

theorem mkBits_length (data : List Nat) (version : Nat) :
    (mkBits data version).length =
      max (getCapacity version * 8)
        ((4 + (if version < 10 then 8 else 16) + 8 * data.length + 7) / 8 * 8) := by
  unfold mkBits padBytes
  dsimp only
  have h1 : (([0, 1, 0, 0] : List Nat) ++
      (List.range (if version < 10 then 8 else 16)).reverse.map
        (fun i => (data.length >>> i) &&& 1)).length =
      4 + (if version < 10 then 8 else 16) := by
    simp
    omega
  have h2 := dataBits_length data (([0, 1, 0, 0] : List Nat) ++
    (List.range (if version < 10 then 8 else 16)).reverse.map
      (fun i => (data.length >>> i) &&& 1))
  rw [h1] at h2
  have h3 := padTerminator_length (data.foldl (fun bits byte =>
    bits ++ ((List.range 8).reverse.map fun i => (byte >>> i) &&& 1))
    (([0, 1, 0, 0] : List Nat) ++
      (List.range (if version < 10 then 8 else 16)).reverse.map
        (fun i => (data.length >>> i) &&& 1)))
  rw [h2] at h3
  rw [padBytesGo_length (getCapacity version * 8) (getCapacity version * 8) _ 0xEC
    (by omega), h3]
  omega

/-!
## Per-version ground facts, established by kernel evaluation on the
bitmask mirror and transferred to the list embedding
-/

set_option maxRecDepth 100000
set_option maxHeartbeats 4000000

theorem ground_col6 : ∀ v, v < 20 → ∀ r, r < (v + 1) * 4 + 17 →
    bget ((v + 1) * 4 + 17) (placePatternsB ((v + 1) * 4 + 17) emptyB (v + 1))
      r 6 ≠ none := by
  decide

theorem ground_timing : ∀ v, v < 20 → ∀ i, 8 ≤ i → i < (v + 1) * 4 + 17 - 8 →
    bget ((v + 1) * 4 + 17) (placePatternsB ((v + 1) * 4 + 17) emptyB (v + 1))
        6 i = some (decide (i % 2 = 0)) ∧
      bget ((v + 1) * 4 + 17) (placePatternsB ((v + 1) * 4 + 17) emptyB (v + 1))
        i 6 = some (decide (i % 2 = 0)) := by
  decide

theorem ground_flag : ∀ v, v < 20 →
    (placePatternsChkB ((v + 1) * 4 + 17) (emptyB, false) (v + 1)).2 = false := by
  decide

theorem ground_visited : ∀ v, v < 20 → ∀ c, c < (v + 1) * 4 + 17 → c ≠ 6 →
    c ∈ visitedCols ((v + 1) * 4 + 17 - 1) := by
  decide

theorem patterns_agree {v : Nat} :
    WF (placePatterns (createMatrix (v * 4 + 17)) v) (v * 4 + 17) ∧
      Agrees (v * 4 + 17) (placePatterns (createMatrix (v * 4 + 17)) v)
        (placePatternsB (v * 4 + 17) emptyB v) :=
  agrees_placePatterns ⟨WF.createMatrix _, agrees_empty _⟩ v

theorem patterns_col6 {v : Nat} (h1 : 1 ≤ v) (h2 : v ≤ 20) :
    ∀ r, r < v * 4 + 17 →
      mget (placePatterns (createMatrix (v * 4 + 17)) v) r 6 ≠ none := by
  intro r hr
  rw [patterns_agree.2 r 6 hr (by omega)]
  have hg := ground_col6 (v - 1) (by omega) r
  rw [show v - 1 + 1 = v from by omega] at hg
  exact hg hr

theorem patterns_timing {v : Nat} (h1 : 1 ≤ v) (h2 : v ≤ 20) :
    ∀ i, 8 ≤ i → i < v * 4 + 17 - 8 →
      mget (placePatterns (createMatrix (v * 4 + 17)) v) 6 i =
          some (decide (i % 2 = 0)) ∧
        mget (placePatterns (createMatrix (v * 4 + 17)) v) i 6 =
          some (decide (i % 2 = 0)) := by
  intro i h8 hi
  have hg := ground_timing (v - 1) (by omega) i
  rw [show v - 1 + 1 = v from by omega] at hg
  have hg2 := hg h8 hi
  constructor
  · rw [patterns_agree.2 6 i (by omega) (by omega)]
    exact hg2.1
  · rw [patterns_agree.2 i 6 (by omega) (by omega)]
    exact hg2.2

theorem patterns_flag {v : Nat} (h1 : 1 ≤ v) (h2 : v ≤ 20) :
    (placePatternsChk (createMatrix (v * 4 + 17), false) v).2 = false := by
  have hag := @agrees_placePatternsChk (v * 4 + 17)
    (createMatrix (v * 4 + 17), false) (emptyB, false)
    ⟨WF.createMatrix _, agrees_empty _, rfl⟩ v
  rw [hag.2.2]
  have hg := ground_flag (v - 1) (by omega)
  rw [show v - 1 + 1 = v from by omega] at hg
  exact hg

theorem visited_complete {v : Nat} (h1 : 1 ≤ v) (h2 : v ≤ 20) :
    ∀ c, c < v * 4 + 17 → c ≠ 6 → c ∈ visitedCols (v * 4 + 17 - 1) := by
  intro c hc h6
  have hg := ground_visited (v - 1) (by omega) c
  rw [show v - 1 + 1 = v from by omega] at hg
  exact hg hc h6

theorem generateQR_eq (data : List Nat) (ecl : ECL) :
    generateQR data ecl =
      fillData (placePatterns
        (createMatrix (getVersion data.length ecl * 4 + 17))
        (getVersion data.length ecl)) data (getVersion data.length ecl) := rfl

theorem fillData_eq (m : Mat) (data : List Nat) (version : Nat) :
    fillData m data version =
      fillCols (mkBits data version) m.length m.length m 0 (m.length - 1) (-1) :=
  rfl

/-!
## Claim theorems
-/

/-- C1: the specification requires that a payload whose byte length exceeds
CapacityTable[20] = 858 make the encode operation fail with
`PayloadTooLarge` and produce no grid.  The code instead clamps: at the
failing input of 859 bytes, `getVersion` returns 20 and `generateQR`
returns a full 97×97 grid.  This theorem evaluates the code at that
failing input, witnessing the divergence. -/
theorem C1_oversize_clamps (ecl : ECL) (hlen : 858 < (List.replicate 859 65).length) :
    getVersion (List.replicate 859 65).length ecl = 20 ∧
      (generateQR (List.replicate 859 65) ecl).length = 97 := by
  constructor
  · show getVersionLoop 859 21 1 = 20
    decide
  · rw [generateQR_length]
    show getVersionLoop 859 21 1 * 4 + 17 = 97
    decide

theorem C1_witness :
    858 < (List.replicate 859 65).length ∧
      (getVersion (List.replicate 859 65).length ECL.M = 20 ∧
        (generateQR (List.replicate 859 65) ECL.M).length = 97) :=
  ⟨by decide, C1_oversize_clamps ECL.M (by decide)⟩

/-- C2: for every payload byte length `L ≤ CapacityTable[20] = 858`, the
selected version is the smallest `v ∈ [1, 20]` with `CapacityTable[v] ≥ L`;
in particular a single-byte payload selects version 1 and a grid of
side 21. -/
theorem C2_smallest_version (L : Nat) (e : ECL) (h : L ≤ 858) :
    (1 ≤ getVersion L e ∧ getVersion L e ≤ 20 ∧
      L ≤ capsGet (getVersion L e) ∧
      (∀ w, 1 ≤ w → w < getVersion L e → capsGet w < L)) ∧
      getVersion 1 e = 1 ∧ (generateQR [65] ECL.M).length = 21 := by
  refine ⟨getVersion_spec L e h, ?_, ?_⟩
  · show getVersionLoop 1 21 1 = 1
    decide
  · rw [generateQR_length]
    show getVersionLoop 1 21 1 * 4 + 17 = 21
    decide

theorem C2_witness :
    200 ≤ 858 ∧
      ((1 ≤ getVersion 200 ECL.M ∧ getVersion 200 ECL.M ≤ 20 ∧
        200 ≤ capsGet (getVersion 200 ECL.M) ∧
        (∀ w, 1 ≤ w → w < getVersion 200 ECL.M → capsGet w < 200)) ∧
        getVersion 1 ECL.M = 1 ∧ (generateQR [65] ECL.M).length = 21) :=
  ⟨by decide, C2_smallest_version 200 ECL.M (by decide)⟩

/-- C3 counterexample: for a 200-byte payload the code selects version 9
(the capacity entry 230 sits at 0-based index 8, version 9 — not
version 10 as the claim states), and the produced grid has side 53,
not 57. -/
theorem C3_counterexample :
    getVersion (List.replicate 200 65).length ECL.M ≠ 10 ∧
      getVersion (List.replicate 200 65).length ECL.M = 9 ∧
      (generateQR (List.replicate 200 65) ECL.M).length = 53 := by
  refine ⟨?_, ?_, ?_⟩
  · show getVersionLoop 200 21 1 ≠ 10
    decide
  · show getVersionLoop 200 21 1 = 9
    decide
  · rw [generateQR_length]
    show getVersionLoop 200 21 1 * 4 + 17 = 53
    decide

/-- C3 amended: for every payload of exactly 200 bytes, the encoder
selects version 9 and produces a grid of side length 53. -/
theorem C3_amended (data : List Nat) (ecl : ECL) (h : data.length = 200) :
    getVersion data.length ecl = 9 ∧ (generateQR data ecl).length = 53 := by
  constructor
  · rw [h]
    show getVersionLoop 200 21 1 = 9
    decide
  · rw [generateQR_length, h]
    show getVersionLoop 200 21 1 * 4 + 17 = 53
    decide

theorem C3_witness :
    (List.replicate 200 66).length = 200 ∧
      (getVersion (List.replicate 200 66).length ECL.L = 9 ∧
        (generateQR (List.replicate 200 66) ECL.L).length = 53) :=
  ⟨by decide, C3_amended (List.replicate 200 66) ECL.L (by decide)⟩

/-- C4 counterexample: a 17-byte payload is within capacity of the
selected version 1 (`CapacityTable[1] = 17`), yet the bit stream built by
`fillData` has 152 bits while the version-1 data capacity
`getCapacity(1) * 8` is 144 bits: the stream is not sized exactly to the
capacity. -/
theorem C4_counterexample :
    getVersion (List.replicate 17 65).length ECL.M = 1 ∧
      (List.replicate 17 65).length ≤ capsGet 1 ∧
      (mkBits (List.replicate 17 65) 1).length = 152 ∧
      getCapacity 1 * 8 = 144 := by
  refine ⟨?_, by decide, by decide, by decide⟩
  show getVersionLoop 17 21 1 = 1
  decide

/-- C4 amended: the bit stream's length is the maximum of the version's
data capacity in bits and the terminator-aligned length of the mode,
count and payload bits; in particular it equals the capacity exactly
whenever the mode, count, data and terminator bits fit within that
capacity. -/
theorem C4_amended (data : List Nat) (version : Nat) :
    (mkBits data version).length =
      max (getCapacity version * 8)
        ((4 + (if version < 10 then 8 else 16) + 8 * data.length + 7) / 8 * 8) ∧
      (4 + (if version < 10 then 8 else 16) + 8 * data.length ≤
          getCapacity version * 8 →
        (mkBits data version).length = getCapacity version * 8) := by
  refine ⟨mkBits_length data version, fun hfit => ?_⟩
  rw [mkBits_length data version]
  omega

theorem C4_witness :
    4 + (if 1 < 10 then 8 else 16) + 8 * ([65] : List Nat).length ≤
        getCapacity 1 * 8 ∧
      (mkBits [65] 1).length = getCapacity 1 * 8 :=
  ⟨by decide, (C4_amended [65] 1).2 (by decide)⟩

/-- C5: for every payload within capacity, the finished grid is square
with side `4·version + 17` (every row has that length) and every cell is
set to either light or dark — no cell remains unset. -/
theorem C5_grid_complete (data : List Nat) (ecl : ECL)
    (h : data.length ≤ 858) :
    (generateQR data ecl).length = getVersion data.length ecl * 4 + 17 ∧
      (∀ row ∈ generateQR data ecl,
        row.length = (generateQR data ecl).length) ∧
      ∀ r c, r < (generateQR data ecl).length →
        c < (generateQR data ecl).length →
        ∃ b, mget (generateQR data ecl) r c = some b := by
  have hv := getVersion_bounds data.length ecl
  have hwfg := generateQR_WF data ecl
  refine ⟨hwfg.1, fun row hrow => by rw [hwfg.2 row hrow, hwfg.1], ?_⟩
  intro r c hr hc
  rw [hwfg.1] at hr hc
  have hP : WF (placePatterns (createMatrix (getVersion data.length ecl * 4 + 17))
      (getVersion data.length ecl)) (getVersion data.length ecl * 4 + 17) :=
    (WF.createMatrix _).placePatterns _
  have hne : mget (generateQR data ecl) r c ≠ none := by
    by_cases hc6 : c = 6
    · subst hc6
      have hcol := patterns_col6 hv.1 hv.2 r hr
      rw [generateQR_eq]
      have hp := fillData_pres (placePatterns
        (createMatrix (getVersion data.length ecl * 4 + 17))
        (getVersion data.length ecl)) data (getVersion data.length ecl)
      rw [hp _ _ hcol]
      exact hcol
    · rw [generateQR_eq, fillData_eq, hP.1]
      have hmem := visited_complete hv.1 hv.2 c hc hc6
      unfold visitedCols at hmem
      rw [visitedColsGo_congr (getVersion data.length ecl * 4 + 17 - 1 + 1)
        (getVersion data.length ecl * 4 + 17)
        (getVersion data.length ecl * 4 + 17 - 1) (by omega) (by omega)] at hmem
      exact fillCols_covers (mkBits data (getVersion data.length ecl))
        (getVersion data.length ecl * 4 + 17) _ 0
        (getVersion data.length ecl * 4 + 17 - 1) (-1) hP (by omega)
        c hmem r hr
  rcases hval : mget (generateQR data ecl) r c with _ | b
  · exact absurd hval hne
  · exact ⟨b, rfl⟩

theorem C5_witness :
    ([65] : List Nat).length ≤ 858 ∧
      ((generateQR [65] ECL.M).length = getVersion ([65] : List Nat).length ECL.M * 4 + 17 ∧
        (∀ row ∈ generateQR [65] ECL.M,
          row.length = (generateQR [65] ECL.M).length) ∧
        ∀ r c, r < (generateQR [65] ECL.M).length →
          c < (generateQR [65] ECL.M).length →
          ∃ b, mget (generateQR [65] ECL.M) r c = some b) :=
  ⟨by decide, C5_grid_complete [65] ECL.M (by decide)⟩

/-- C6: running the encode pipeline with an instrumented write primitive
that raises a flag the moment any write targets an already-set module
reproduces the ordinary grid with the flag still false: every module is
written by at most one writer (first writer wins), and in particular the
functional pattern modules are never touched again by the data pass,
whose writes are all guarded on the cell still being unset. -/
theorem C6_first_writer_wins (data : List Nat) (ecl : ECL)
    (h : data.length ≤ 858) :
    applyMaskChk
        (createMatrix (getVersion data.length ecl * 4 + 17), false) data
        (getVersion data.length ecl) (EC_LEVELS ecl) =
      (generateQR data ecl, false) := by
  have hv := getVersion_bounds data.length ecl
  rw [applyMaskChk_eq]
  have hflag := patterns_flag (v := getVersion data.length ecl) hv.1 hv.2
  rw [Prod.ext_iff]
  exact ⟨rfl, hflag⟩

theorem C6_witness :
    ([65] : List Nat).length ≤ 858 ∧
      applyMaskChk
          (createMatrix (getVersion ([65] : List Nat).length ECL.M * 4 + 17), false)
          [65] (getVersion ([65] : List Nat).length ECL.M) (EC_LEVELS ECL.M) =
        (generateQR [65] ECL.M, false) :=
  ⟨by decide, C6_first_writer_wins [65] ECL.M (by decide)⟩

/-- C7: in the finished grid, for every payload within capacity, the
modules along row 6 and column 6 at every index `i ∈ [8, N-9]` are dark
exactly when `i` is even, and the data pass never alters them. -/
theorem C7_timing_pattern (data : List Nat) (ecl : ECL)
    (h : data.length ≤ 858) (i : Nat) (h8 : 8 ≤ i)
    (hi : i < getVersion data.length ecl * 4 + 17 - 8) :
    mget (generateQR data ecl) 6 i = some (decide (i % 2 = 0)) ∧
      mget (generateQR data ecl) i 6 = some (decide (i % 2 = 0)) := by
  have hv := getVersion_bounds data.length ecl
  have ht := patterns_timing hv.1 hv.2 i h8 hi
  have hp := fillData_pres (placePatterns
    (createMatrix (getVersion data.length ecl * 4 + 17))
    (getVersion data.length ecl)) data (getVersion data.length ecl)
  rw [generateQR_eq]
  constructor
  · rw [hp 6 i (by rw [ht.1]; exact fun hx => Option.noConfusion hx), ht.1]
  · rw [hp i 6 (by rw [ht.2]; exact fun hx => Option.noConfusion hx), ht.2]

theorem C7_witness :
    ([65] : List Nat).length ≤ 858 ∧ 8 ≤ 8 ∧
      8 < getVersion ([65] : List Nat).length ECL.M * 4 + 17 - 8 ∧
      (mget (generateQR [65] ECL.M) 6 8 = some (decide (8 % 2 = 0)) ∧
        mget (generateQR [65] ECL.M) 8 6 = some (decide (8 % 2 = 0))) :=
  ⟨by decide, by decide, by decide,
    C7_timing_pattern [65] ECL.M (by decide) 8 (by decide) (by decide)⟩

/-- C8: version selection is monotone in the payload byte length: if
payload A is no longer than payload B, the version selected for A is at
most the version selected for B (for any error-correction levels). -/
theorem C8_version_monotone (A B : List Nat) (e e' : ECL)
    (h : A.length ≤ B.length) :
    getVersion A.length e ≤ getVersion B.length e' :=
  getVersion_mono h e e'

theorem C8_witness :
    ([65] : List Nat).length ≤ (List.replicate 100 65).length ∧
      getVersion ([65] : List Nat).length ECL.L ≤
        getVersion (List.replicate 100 65).length ECL.H :=
  ⟨by decide, C8_version_monotone [65] (List.replicate 100 65) ECL.L ECL.H (by decide)⟩

/-- C9: the error-correction level is received but never used: for every
payload and any two levels among {L, M, Q, H}, `generateQR` produces
bit-identical module grids. -/
theorem C9_ecl_independent (data : List Nat) (e1 e2 : ECL) :
    generateQR data e1 = generateQR data e2 := rfl

/-- C10: for every payload within capacity the encode computation
terminates and yields a grid: all loops of the embedding are total
functions (the version scan, alignment-position generation, bit-stream
padding and the zigzag traversal are structurally recursive), and the
result is a well-formed grid of positive side `4·version + 17`. -/
theorem C10_total (data : List Nat) (ecl : ECL) (h : data.length ≤ 858) :
    ∃ g : Mat, generateQR data ecl = g ∧
      g.length = getVersion data.length ecl * 4 + 17 ∧ 21 ≤ g.length ∧
      ∀ row ∈ g, row.length = g.length := by
  have hv := getVersion_bounds data.length ecl
  have hwfg := generateQR_WF data ecl
  refine ⟨generateQR data ecl, rfl, hwfg.1, ?_, fun row hrow => by
    rw [hwfg.2 row hrow, hwfg.1]⟩
  rw [hwfg.1]
  omega

theorem C10_witness :
    ([65] : List Nat).length ≤ 858 ∧
      ∃ g : Mat, generateQR [65] ECL.M = g ∧
        g.length = getVersion ([65] : List Nat).length ECL.M * 4 + 17 ∧
        21 ≤ g.length ∧ ∀ row ∈ g, row.length = g.length :=
  ⟨by decide, C10_total [65] ECL.M (by decide)⟩

end QR
